import Mathlib

/-!
Verification development for the `PolyModel` polynomial regression engine of
`microns_utils/model_utils.py`.

Matrices are embedded as `List (List ℚ)` (row-major, mirroring 2-D numpy
arrays with exact rational arithmetic in place of floating point).  Failures
(Python `assert`, `eval` errors, `np.linalg.LinAlgError`, attribute errors)
are modelled with an explicit error type whose constructors follow the
specification's error taxonomy:
- `assert solve ^ initialize` (line 176)              -> `invalidConstruction`
- feature/variable count asserts (lines 190, 235)     -> `dimensionMismatch`
- constants shape assert (line 211)                   -> `dimensionMismatch`
- `eval` syntax errors                                -> `malformedExpression`
- `eval` name errors                                  -> `unboundVariable`
- scalar-where-column-needed (`np.hstack` failures)   -> `shapeError`
- `np.linalg.inv` on a singular matrix                -> `singularDesignMatrix`
- `r2` on a model with no stored features/targets     -> `unavailableDiagnostic`

The Python term strings are evaluated by `eval` over numpy columns; this is
embedded as a small lexer/parser/evaluator for the arithmetic fragment that
the terms can use (identifiers, numeric literals, parentheses, unary minus,
and the binary operators of the restricted grammar), with numpy-style
scalar/column broadcasting.
-/

namespace MU

open Matrix (transpose)

open scoped Matrix

abbrev Col := List ℚ
abbrev Mat := List (List ℚ)

inductive Err where
  | invalidConstruction : String → Err
  | dimensionMismatch : Nat → Nat → Err
  | malformedExpression : Err
  | unboundVariable : List Char → Err
  | shapeError : Err
  | singularDesignMatrix : Err
  | unavailableDiagnostic : Err
  deriving DecidableEq

/-! ### List-matrix primitives (model of the numpy operations used) -/

/-- Dot product of two rows/columns (`np.sum(u * v)` for equal-length 1-D arrays). -/
def dot (u v : Col) : ℚ := (List.zipWith (· * ·) u v).sum

/-- Number of columns of a row-major matrix (`A.shape[1]` for 2-D `A`). -/
def colCount (A : Mat) : Nat := (A.headD []).length

/-- Column `j` of `A` (`A[:, j]`). -/
def colOf (A : Mat) (j : Nat) : Col := A.map (fun r => r.getD j 0)

/-- Transpose (`A.T`). -/
def transposeM (A : Mat) : Mat := (List.range (colCount A)).map (fun j => colOf A j)

/-- Matrix product (`A @ B`). -/
def matmul (A B : Mat) : Mat := A.map (fun r => (transposeM B).map (fun c => dot r c))

/-- `np.hstack` of `n`-row single-column arrays. -/
def hstackCols (n : Nat) (cols : List Col) : Mat :=
  (List.range n).map (fun i => cols.map (fun c => c.getD i 0))

/-- `np.ones(n)`. -/
def onesCol (n : Nat) : Col := List.replicate n 1

/-- `A` is a well-formed `n × m` rectangular matrix. -/
def IsRect (A : Mat) (n m : Nat) : Prop := A.length = n ∧ ∀ r ∈ A, r.length = m

/-- Bridge from the list representation to Mathlib matrices. -/
def toMx (n m : Nat) (A : Mat) : Matrix (Fin n) (Fin m) ℚ :=
  Matrix.of fun i j => (A.getD i []).getD j 0

/-- Bridge back from Mathlib matrices to the list representation. -/
def ofMx (n m : Nat) (M : Matrix (Fin n) (Fin m) ℚ) : Mat :=
  (List.finRange n).map fun i => (List.finRange m).map fun j => M i j

/-- Executable determinant by Laplace expansion along the first row
(proved equal to `Matrix.det` below). -/
def detQ : (n : Nat) → Matrix (Fin n) (Fin n) ℚ → ℚ
  | 0, _ => 1
  | Nat.succ m, A =>
      ((List.finRange (Nat.succ m)).map
        (fun j : Fin (Nat.succ m) =>
          (-1) ^ (j : ℕ) * A 0 j * detQ m (A.submatrix Fin.succ (Fin.succAbove j)))).sum

/-- Executable adjugate by cofactors (proved equal to `Matrix.adjugate` below). -/
def adjugateQ (n : Nat) (A : Matrix (Fin n) (Fin n) ℚ) : Matrix (Fin n) (Fin n) ℚ :=
  match n with
  | 0 => A
  | Nat.succ m =>
      Matrix.of fun i j =>
        (-1) ^ ((j : ℕ) + (i : ℕ)) * detQ m (A.submatrix (Fin.succAbove j) (Fin.succAbove i))

/-- Model of `np.linalg.inv`: the exact inverse of a square matrix, raising
`LinAlgError` (here `singularDesignMatrix`) on a singular input. -/
def matInv (A : Mat) : Except Err Mat :=
  if _h : ∀ r ∈ A, r.length = A.length then
    if detQ A.length (toMx A.length A.length A) = 0 then .error .singularDesignMatrix
    else .ok (ofMx A.length A.length
      ((detQ A.length (toMx A.length A.length A))⁻¹ • adjugateQ A.length (toMx A.length A.length A)))
  else .error .shapeError

/-! ### Model-specification string processing

The Python code uses `str.split('+')`, `str.strip()`, `str.replace('^','**')`,
`re.findall('[a-z]', model)` and `np.unique`; these are modelled over
`List Char`. -/

def wsChar (c : Char) : Bool := c = ' ' || c = '\t' || c = '\n' || c = '\r'

/-- `str.strip()`. -/
def trimChars (l : List Char) : List Char :=
  ((l.dropWhile wsChar).reverse.dropWhile wsChar).reverse

/-- `str.replace('^', '**')`. -/
def replaceCaret : List Char → List Char
  | [] => []
  | c :: rest => if c = '^' then '*' :: '*' :: replaceCaret rest else c :: replaceCaret rest

/-- `str.split('+')`. -/
def splitPlus : List Char → List (List Char)
  | [] => [[]]
  | c :: rest =>
      if c = '+' then [] :: splitPlus rest
      else
        match splitPlus rest with
        | [] => [[c]]
        | p :: ps => (c :: p) :: ps

def insertChar (c : Char) : List Char → List Char
  | [] => [c]
  | d :: rest => if c ≤ d then c :: d :: rest else d :: insertChar c rest

def sortChars : List Char → List Char
  | [] => []
  | c :: rest => insertChar c (sortChars rest)

/-- `self._terms = ['_bias'] + [t.strip() for t in model.split('+')]` (line 179). -/
def pmTerms (model : String) : List (List Char) :=
  "_bias".toList :: (splitPlus model.toList).map trimChars

/-- `self.variables = np.unique(re.findall('[a-z]', model)).tolist()` (line 180). -/
def pmVariables (model : String) : List Char :=
  sortChars ((model.toList.filter (fun c => 'a' ≤ c && c ≤ 'z')).dedup)

/-! ### Term expressions: lexer, parser, evaluator (model of Python `eval`
on the restricted arithmetic grammar over bound numpy columns) -/

inductive Tok where
  | ident : List Char → Tok
  | num : ℚ → Tok
  | plus : Tok
  | minus : Tok
  | star : Tok
  | dstar : Tok
  | slash : Tok
  | lparen : Tok
  | rparen : Tok
  deriving DecidableEq

def identStart (c : Char) : Bool :=
  ('a' ≤ c && c ≤ 'z') || ('A' ≤ c && c ≤ 'Z') || c = '_'

def digitChar (c : Char) : Bool := '0' ≤ c && c ≤ '9'

def identCont (c : Char) : Bool := identStart c || digitChar c

def numChar (c : Char) : Bool := digitChar c || c = '.'

def digitsToNat (l : List Char) : Nat :=
  l.foldl (fun acc c => acc * 10 + (c.toNat - 48)) 0

/-- Value of a numeric literal: digits with at most one decimal point. -/
def litOfChars (l : List Char) : Option ℚ :=
  if l.any digitChar then
    match splitPlus (l.map (fun c => if c = '.' then '+' else c)) with
    | [ip] => some (digitsToNat ip : ℚ)
    | [ip, fp] => some ((digitsToNat ip : ℚ) + (digitsToNat fp : ℚ) / (10 : ℚ) ^ fp.length)
    | _ => none
  else none

def lexF : Nat → List Char → Except Err (List Tok)
  | 0, _ => .error .malformedExpression
  | _ + 1, [] => .ok []
  | f + 1, c :: rest =>
      if wsChar c then lexF f rest
      else if identStart c then
        match lexF f ((c :: rest).dropWhile identCont) with
        | .error e => .error e
        | .ok ts => .ok (.ident ((c :: rest).takeWhile identCont) :: ts)
      else if numChar c then
        match litOfChars ((c :: rest).takeWhile numChar) with
        | none => .error .malformedExpression
        | some q =>
            match lexF f ((c :: rest).dropWhile numChar) with
            | .error e => .error e
            | .ok ts => .ok (.num q :: ts)
      else if c = '*' then
        match rest with
        | '*' :: rest' =>
            match lexF f rest' with
            | .error e => .error e
            | .ok ts => .ok (.dstar :: ts)
        | _ =>
            match lexF f rest with
            | .error e => .error e
            | .ok ts => .ok (.star :: ts)
      else if c = '+' then
        match lexF f rest with
        | .error e => .error e
        | .ok ts => .ok (.plus :: ts)
      else if c = '-' then
        match lexF f rest with
        | .error e => .error e
        | .ok ts => .ok (.minus :: ts)
      else if c = '/' then
        match lexF f rest with
        | .error e => .error e
        | .ok ts => .ok (.slash :: ts)
      else if c = '(' then
        match lexF f rest with
        | .error e => .error e
        | .ok ts => .ok (.lparen :: ts)
      else if c = ')' then
        match lexF f rest with
        | .error e => .error e
        | .ok ts => .ok (.rparen :: ts)
      else .error .malformedExpression

inductive Expr where
  | lit : ℚ → Expr
  | var : List Char → Expr
  | neg : Expr → Expr
  | add : Expr → Expr → Expr
  | sub : Expr → Expr → Expr
  | mul : Expr → Expr → Expr
  | div : Expr → Expr → Expr
  | pow : Expr → Expr → Expr
  deriving DecidableEq

mutual

/-- Additive level: `t (('+'|'-') t)*`. -/
def parseAdd : Nat → List Tok → Except Err (Expr × List Tok)
  | 0, _ => .error .malformedExpression
  | f + 1, ts =>
      match parseMul f ts with
      | .error e => .error e
      | .ok (a, ts₁) => parseAddRest f a ts₁

def parseAddRest : Nat → Expr → List Tok → Except Err (Expr × List Tok)
  | 0, _, _ => .error .malformedExpression
  | f + 1, acc, .plus :: ts =>
      match parseMul f ts with
      | .error e => .error e
      | .ok (b, ts₁) => parseAddRest f (.add acc b) ts₁
  | f + 1, acc, .minus :: ts =>
      match parseMul f ts with
      | .error e => .error e
      | .ok (b, ts₁) => parseAddRest f (.sub acc b) ts₁
  | _ + 1, acc, ts => .ok (acc, ts)

/-- Multiplicative level: `u (('*'|'/') u)*`. -/
def parseMul : Nat → List Tok → Except Err (Expr × List Tok)
  | 0, _ => .error .malformedExpression
  | f + 1, ts =>
      match parseUnary f ts with
      | .error e => .error e
      | .ok (a, ts₁) => parseMulRest f a ts₁

def parseMulRest : Nat → Expr → List Tok → Except Err (Expr × List Tok)
  | 0, _, _ => .error .malformedExpression
  | f + 1, acc, .star :: ts =>
      match parseUnary f ts with
      | .error e => .error e
      | .ok (b, ts₁) => parseMulRest f (.mul acc b) ts₁
  | f + 1, acc, .slash :: ts =>
      match parseUnary f ts with
      | .error e => .error e
      | .ok (b, ts₁) => parseMulRest f (.div acc b) ts₁
  | _ + 1, acc, ts => .ok (acc, ts)

/-- Unary level: `'-' u | p` (Python: `-x**2` parses as `-(x**2)`). -/
def parseUnary : Nat → List Tok → Except Err (Expr × List Tok)
  | 0, _ => .error .malformedExpression
  | f + 1, .minus :: ts =>
      match parseUnary f ts with
      | .error e => .error e
      | .ok (a, ts₁) => .ok (.neg a, ts₁)
  | f + 1, ts => parsePow f ts

/-- Power level: `atom ('**' u)?` (right-associative, exponent at unary level). -/
def parsePow : Nat → List Tok → Except Err (Expr × List Tok)
  | 0, _ => .error .malformedExpression
  | f + 1, ts =>
      match parseAtom f ts with
      | .error e => .error e
      | .ok (a, .dstar :: ts₁) =>
          match parseUnary f ts₁ with
          | .error e => .error e
          | .ok (b, ts₂) => .ok (.pow a b, ts₂)
      | .ok (a, ts₁) => .ok (a, ts₁)

def parseAtom : Nat → List Tok → Except Err (Expr × List Tok)
  | 0, _ => .error .malformedExpression
  | _ + 1, .ident s :: ts => .ok (.var s, ts)
  | _ + 1, .num q :: ts => .ok (.lit q, ts)
  | f + 1, .lparen :: ts =>
      match parseAdd f ts with
      | .error e => .error e
      | .ok (a, .rparen :: ts₁) => .ok (a, ts₁)
      | .ok (_, _) => .error .malformedExpression
  | _ + 1, _ => .error .malformedExpression

end

/-- Parse a term string into an expression (`eval`'s parse phase). -/
def parseExpr (l : List Char) : Except Err Expr :=
  match lexF (l.length + 1) l with
  | .error e => .error e
  | .ok ts =>
      match parseAdd (5 * ts.length + 5) ts with
      | .error e => .error e
      | .ok (a, []) => .ok a
      | .ok (_, _ :: _) => .error .malformedExpression

/-- Runtime values of term evaluation: a numpy scalar or a column. -/
inductive Val where
  | scl : ℚ → Val
  | col : Col → Val
  deriving DecidableEq

/-- numpy elementwise broadcasting for a binary arithmetic operation. -/
def broadcast (f : ℚ → ℚ → ℚ) : Val → Val → Except Err Val
  | .scl a, .scl b => .ok (.scl (f a b))
  | .scl a, .col v => .ok (.col (v.map (fun x => f a x)))
  | .col v, .scl b => .ok (.col (v.map (fun x => f x b)))
  | .col u, .col v =>
      if u.length = v.length then .ok (.col (List.zipWith f u v)) else .error .shapeError

/-- numpy `**`: the exponent must be an integer scalar. -/
def vpow : Val → Val → Except Err Val
  | a, .scl q =>
      if q.den = 1 then
        match a with
        | .scl x => .ok (.scl (x ^ q.num))
        | .col v => .ok (.col (v.map (fun x => x ^ q.num)))
      else .error .shapeError
  | _, .col _ => .error .shapeError

def vneg : Val → Val
  | .scl a => .scl (-a)
  | .col v => .col (v.map (fun x => -x))

/-- Variable-binding namespace of an `eval` call. -/
abbrev Env := List (List Char × Col)

def lookupEnv (k : List Char) : Env → Option Col
  | [] => none
  | (k', v) :: rest => if k = k' then some v else lookupEnv k rest

/-- Evaluation of a parsed expression over bound columns (`eval`'s run phase). -/
def evalE (env : Env) : Expr → Except Err Val
  | .lit q => .ok (.scl q)
  | .var s =>
      match lookupEnv s env with
      | some v => .ok (.col v)
      | none => .error (.unboundVariable s)
  | .neg a =>
      match evalE env a with
      | .error e => .error e
      | .ok v => .ok (vneg v)
  | .add a b =>
      match evalE env a with
      | .error e => .error e
      | .ok x =>
          match evalE env b with
          | .error e => .error e
          | .ok y => broadcast (· + ·) x y
  | .sub a b =>
      match evalE env a with
      | .error e => .error e
      | .ok x =>
          match evalE env b with
          | .error e => .error e
          | .ok y => broadcast (· - ·) x y
  | .mul a b =>
      match evalE env a with
      | .error e => .error e
      | .ok x =>
          match evalE env b with
          | .error e => .error e
          | .ok y => broadcast (· * ·) x y
  | .div a b =>
      match evalE env a with
      | .error e => .error e
      | .ok x =>
          match evalE env b with
          | .error e => .error e
          | .ok y => broadcast (· / ·) x y
  | .pow a b =>
      match evalE env a with
      | .error e => .error e
      | .ok x =>
          match evalE env b with
          | .error e => .error e
          | .ok y => vpow x y

/-- The result of a term must be a column for `np.hstack`/`np.expand_dims`. -/
def asCol : Val → Except Err Col
  | .col v => .ok v
  | .scl _ => .error .shapeError

/-- Evaluate a term string to a column in the given namespace. -/
def evalTermCol (l : List Char) (env : Env) : Except Err Col :=
  match parseExpr l with
  | .error e => .error e
  | .ok e =>
      match evalE env e with
      | .error e' => .error e'
      | .ok v => asCol v

/-! ### The PolyModel class -/

structure PolyModel where
  model : String
  _terms : List (List Char)
  variables' : List Char
  features : Option Mat
  targets : Option Mat
  _features_computed : Option Mat
  constants : Mat
  deriving DecidableEq

/-- `PolyModel.least_squares` (line 224): `inv(p.T @ p) @ (p.T @ q)`. -/
def PolyModel.least_squares (p q : Mat) : Except Err Mat :=
  match matInv (matmul (transposeM p) p) with
  | .error e => .error e
  | .ok a => .ok (matmul a (matmul (transposeM p) q))

/-- Fit-time namespace (lines 188, 193-194): `_bias` bound to a column of
ones and each variable to its feature column, via
`zip(['_bias'] + self.variables, self._features_with_bias.T)`. -/
def fitEnv (variables' : List Char) (features : Mat) : Env :=
  List.zip ("_bias".toList :: variables'.map (fun c => [c]))
    (onesCol features.length :: transposeM features)

/-- Run-time namespace (lines 238-240): each variable bound to its data
column; `_bias` is not bound. -/
def runEnv (variables' : List Char) (data : Mat) : Env :=
  List.zip (variables'.map (fun c => [c])) (transposeM data)

def mapME (f : α → Except Err β) : List α → Except Err (List β)
  | [] => .ok []
  | a :: rest =>
      match f a with
      | .error e => .error e
      | .ok b =>
          match mapME f rest with
          | .error e => .error e
          | .ok bs => .ok (b :: bs)

/-- `PolyModel.__init__` (lines 174-212). -/
def PolyModel.init (model : String) (features targets constants : Option Mat) :
    Except Err PolyModel :=
  let solve := features.isSome || targets.isSome
  let preload := constants.isSome
  if solve = preload then
    .error (.invalidConstruction "Provide features and targets, or constants, but not both.")
  else if solve then
    match features, targets with
    | some fs, some ts =>
        if colCount fs ≠ (pmVariables model).length then
          .error (.dimensionMismatch (colCount fs) (pmVariables model).length)
        else
          match
            mapME (fun t => evalTermCol (trimChars (replaceCaret t)) (fitEnv (pmVariables model) fs))
              (pmTerms model)
          with
          | .error e => .error e
          | .ok cols =>
              match PolyModel.least_squares (hstackCols fs.length cols) ts with
              | .error e => .error e
              | .ok cs =>
                  .ok ⟨model, pmTerms model, pmVariables model, some fs, some ts,
                    some (hstackCols fs.length cols), cs⟩
    | _, _ => .error (.invalidConstruction "Provide features and targets.")
  else
    match constants with
    | some cs =>
        if cs.length ≠ (pmTerms model).length then
          .error (.dimensionMismatch cs.length (pmTerms model).length)
        else .ok ⟨model, pmTerms model, pmVariables model, none, none, none, cs⟩
    | none => .error (.invalidConstruction "Provide features and targets, or constants, but not both.")

/-- The design matrix reassembled inside `run` (lines 242-244): a column of
ones followed by each non-bias term evaluated over the data columns. -/
def PolyModel.runDesign (m : PolyModel) (data : Mat) : Except Err Mat :=
  match
    mapME (fun t => evalTermCol (replaceCaret t) (runEnv m.variables' data)) (m._terms.drop 1)
  with
  | .error e => .error e
  | .ok cols => .ok (hstackCols data.length (onesCol data.length :: cols))

/-- `PolyModel.run` (lines 226-249). -/
def PolyModel.run (m : PolyModel) (data : Mat) : Except Err Mat :=
  if colCount data ≠ m.variables'.length then
    .error (.dimensionMismatch (colCount data) m.variables'.length)
  else
    match m.runDesign data with
    | .error e => .error e
    | .ok D =>
        .ok (transposeM ((transposeM m.constants).map (fun cst => D.map (fun row => dot cst row))))

/-- `PolyModel.r2` (lines 214-220). -/
def PolyModel.r2 (m : PolyModel) : Except Err Col :=
  match m.features, m.targets with
  | some fs, some ts =>
      (match m.run fs with
       | .error e => .error e
       | .ok pred =>
           .ok ((List.range (colCount ts)).map (fun t =>
             let pcol := colOf pred t
             let tcol := colOf ts t
             let mean := tcol.sum / (ts.length : ℚ)
             1 - ((List.zipWith (fun a b => (a - b) ^ (2 : ℕ)) pcol tcol).sum /
                   ((tcol.map (fun a => (a - mean) ^ (2 : ℕ))).sum)))))
  | _, _ => .error .unavailableDiagnostic


/-- The inverse of `splitPlus`: interleave the pieces with `+`
(used to characterize the split). -/
def joinPlus : List (List Char) → List Char
  | [] => []
  | [p] => p
  | p :: ps => p ++ '+' :: joinPlus ps

/-- `NoLeadWS l`: the list does not start with whitespace. -/
def NoLeadWS (l : List Char) : Prop := l.dropWhile wsChar = l

/-- Namespace extension order: every binding visible in `env` is also visible
in `env'` with the same value. -/
def envLe (env env' : Env) : Prop :=
  ∀ k v, lookupEnv k env = some v → lookupEnv k env' = some v

/-! ### Basic list lemmas -/

theorem getD_lt {α : Type _} (d : α) :
    ∀ (l : List α) (i : Nat) (h : i < l.length), l.getD i d = l.get ⟨i, h⟩ := by
  intro l
  induction l with
  | nil => intro i h; simp at h
  | cons a t ih =>
      intro i h
      cases i with
      | zero => rfl
      | succ j => exact ih j (Nat.lt_of_succ_lt_succ h)

theorem getD_ge {α : Type _} (d : α) :
    ∀ (l : List α) (i : Nat), l.length ≤ i → l.getD i d = d := by
  intro l
  induction l with
  | nil => intro i _; cases i <;> rfl
  | cons a t ih =>
      intro i h
      cases i with
      | zero => simp at h
      | succ j => exact ih j (Nat.le_of_succ_le_succ h)

theorem getD_map {α β : Type _} (f : α → β) (d : α) :
    ∀ (l : List α) (i : Nat), i < l.length → (l.map f).getD i (f d) = f (l.getD i d) := by
  intro l
  induction l with
  | nil => intro i h; simp at h
  | cons a t ih =>
      intro i h
      cases i with
      | zero => rfl
      | succ j => exact ih j (Nat.lt_of_succ_lt_succ h)

theorem get_range (n i : Nat) (h : i < (List.range n).length) : (List.range n).get ⟨i, h⟩ = i := by
  simp

theorem get_map {α β : Type _} (f : α → β) (l : List α) (i : Nat) (h : i < (l.map f).length) :
    (l.map f).get ⟨i, h⟩ = f (l.get ⟨i, by simpa using h⟩) := by
  simp

theorem ext_get {α : Type _} {l₁ l₂ : List α} (hl : l₁.length = l₂.length)
    (h : ∀ (i : Nat) (h₁ : i < l₁.length) (h₂ : i < l₂.length), l₁.get ⟨i, h₁⟩ = l₂.get ⟨i, h₂⟩) :
    l₁ = l₂ :=
  List.ext_get hl h

/-! ### Shape lemmas for the matrix primitives -/

theorem length_colOf (A : Mat) (j : Nat) : (colOf A j).length = A.length := by
  simp [colOf]

theorem length_transposeM (A : Mat) : (transposeM A).length = colCount A := by
  simp [transposeM]

theorem transposeM_isRect (A : Mat) : IsRect (transposeM A) (colCount A) A.length := by
  refine ⟨length_transposeM A, ?_⟩
  intro r hr
  simp only [transposeM, List.mem_map] at hr
  obtain ⟨j, -, rfl⟩ := hr
  exact length_colOf A j

theorem matmul_length (A B : Mat) : (matmul A B).length = A.length := by
  simp [matmul]

theorem matmul_isRect (A B : Mat) : IsRect (matmul A B) A.length (colCount B) := by
  refine ⟨matmul_length A B, ?_⟩
  intro r hr
  simp only [matmul, List.mem_map] at hr
  obtain ⟨row, -, rfl⟩ := hr
  simp [length_transposeM]

theorem hstackCols_isRect (n : Nat) (cols : List Col) :
    IsRect (hstackCols n cols) n cols.length := by
  constructor
  · simp [hstackCols]
  · intro r hr
    simp only [hstackCols, List.mem_map] at hr
    obtain ⟨i, -, rfl⟩ := hr
    simp

theorem colCount_of_isRect {A : Mat} {n m : Nat} (h : IsRect A n m) (hn : 0 < n) :
    colCount A = m := by
  obtain ⟨hlen, hrow⟩ := h
  cases A with
  | nil => simp at hlen; omega
  | cons r t => exact hrow r (List.mem_cons_self r t)

theorem ofMx_isRect (n m : Nat) (M : Matrix (Fin n) (Fin m) ℚ) : IsRect (ofMx n m M) n m := by
  constructor
  · simp [ofMx]
  · intro r hr
    simp only [ofMx, List.mem_map] at hr
    obtain ⟨i, -, rfl⟩ := hr
    simp


/-! ### Bridge lemmas between the list representation and Mathlib matrices -/

theorem getD_map_lt {α β : Type _} (f : α → β) (d : β) :
    ∀ (l : List α) (i : Nat) (h : i < l.length), (l.map f).getD i d = f (l.get ⟨i, h⟩) := by
  intro l
  induction l with
  | nil => intro i h; simp at h
  | cons a t ih =>
      intro i h
      cases i with
      | zero => rfl
      | succ j => exact ih j (Nat.lt_of_succ_lt_succ h)

theorem toMx_apply (n m : Nat) (A : Mat) (i : Fin n) (j : Fin m) :
    toMx n m A i j = (A.getD i []).getD j 0 := rfl

theorem row_length {A : Mat} {n m : Nat} (h : IsRect A n m) (i : Nat) (hi : i < A.length) :
    (A.get ⟨i, hi⟩).length = m :=
  h.2 _ (A.get_mem i hi)

theorem toMx_get {A : Mat} {n m : Nat} (i : Fin n) (j : Fin m) (hi : (i : Nat) < A.length) :
    toMx n m A i j = (A.get ⟨(i : Nat), hi⟩).getD j 0 := by
  rw [toMx_apply, getD_lt [] A (i : Nat) hi]

theorem transposeM_get {A : Mat} (j : Nat) (hj : j < (transposeM A).length) :
    (transposeM A).get ⟨j, hj⟩ = colOf A j := by
  simp only [transposeM] at hj ⊢
  rw [get_map, get_range]

theorem toMx_transposeM {A : Mat} {n m : Nat} (h : IsRect A n m) (hn : 0 < n) :
    toMx m n (transposeM A) = (toMx n m A)ᵀ := by
  have hc : colCount A = m := colCount_of_isRect h hn
  ext i j
  have hi : (i : Nat) < (transposeM A).length := by
    rw [length_transposeM, hc]; exact i.isLt
  have hjA : (j : Nat) < A.length := h.1 ▸ j.isLt
  rw [toMx_get i j hi, transposeM_get, Matrix.transpose_apply, toMx_get j i hjA]
  rw [colOf, getD_map_lt _ 0 _ _ hjA]

theorem dot_eq_sum :
    ∀ (k : Nat) (u v : Col), u.length = k → v.length = k →
      dot u v = ∑ i : Fin k, u.getD i 0 * v.getD i 0 := by
  intro k
  induction k with
  | zero =>
      intro u v hu hv
      rw [List.length_eq_zero] at hu hv
      subst hu; subst hv
      simp [dot]
  | succ k ih =>
      intro u v hu hv
      cases u with
      | nil => simp at hu
      | cons a u' =>
          cases v with
          | nil => simp at hv
          | cons b v' =>
              simp only [List.length_cons, Nat.succ.injEq] at hu hv
              have hz : dot (a :: u') (b :: v') = a * b + dot u' v' := by
                simp [dot]
              rw [hz, ih u' v' hu hv, Fin.sum_univ_succ]
              rfl

theorem toMx_matmul {A B : Mat} {n k m : Nat} (hA : IsRect A n k) (hB : IsRect B k m)
    (hk : 0 < k) : toMx n m (matmul A B) = toMx n k A * toMx k m B := by
  have hcB : colCount B = m := colCount_of_isRect hB hk
  ext i j
  have hlen : (i : Nat) < (matmul A B).length := by
    rw [matmul_length, hA.1]; exact i.isLt
  rw [toMx_get i j hlen, Matrix.mul_apply]
  have hiA : (i : Nat) < A.length := hA.1 ▸ i.isLt
  have hmm : (matmul A B).get ⟨i, hlen⟩ =
      (transposeM B).map (fun c => dot (A.get ⟨i, hiA⟩) c) := by
    simp only [matmul]
    rw [get_map]
  rw [hmm]
  have hjT : (j : Nat) < (transposeM B).length := by
    rw [length_transposeM, hcB]; exact j.isLt
  rw [getD_map_lt _ 0 _ _ hjT, transposeM_get]
  have h1 : (A.get ⟨i, hiA⟩).length = k := row_length hA i hiA
  have h2 : (colOf B j).length = k := by rw [length_colOf, hB.1]
  rw [dot_eq_sum k _ _ h1 h2]
  refine Finset.sum_congr rfl ?_
  intro t _
  have htB : (t : Nat) < B.length := hB.1 ▸ t.isLt
  rw [toMx_get i t hiA, toMx_get t j htB]
  congr 1
  rw [colOf, getD_map_lt _ 0 _ _ htB]

theorem ofMx_get {n m : Nat} (M : Matrix (Fin n) (Fin m) ℚ) (i : Fin n) (j : Fin m) :
    ((ofMx n m M).getD i []).getD j 0 = M i j := by
  have hi : (i : Nat) < (List.finRange n).length := by
    rw [List.length_finRange]; exact i.isLt
  have hj : (j : Nat) < (List.finRange m).length := by
    rw [List.length_finRange]; exact j.isLt
  simp only [ofMx]
  rw [getD_map_lt _ [] _ _ hi, getD_map_lt _ 0 _ _ hj, List.get_finRange, List.get_finRange]

theorem toMx_ofMx (n m : Nat) (M : Matrix (Fin n) (Fin m) ℚ) : toMx n m (ofMx n m M) = M := by
  ext i j
  rw [toMx_apply, ofMx_get]

theorem toMx_inj {A B : Mat} {n m : Nat} (hA : IsRect A n m) (hB : IsRect B n m)
    (h : toMx n m A = toMx n m B) : A = B := by
  refine ext_get (by rw [hA.1, hB.1]) ?_
  intro i h₁ h₂
  refine ext_get (by rw [row_length hA i h₁, row_length hB i h₂]) ?_
  intro j hj₁ hj₂
  have hi : i < n := hA.1 ▸ h₁
  have hjm : j < m := row_length hA i h₁ ▸ hj₁
  have hq := congrFun (congrFun h ⟨i, hi⟩) ⟨j, hjm⟩
  rw [toMx_get _ _ h₁, toMx_get _ _ h₂] at hq
  rwa [getD_lt 0 _ _ hj₁, getD_lt 0 _ _ hj₂] at hq

/-! ### The executable determinant and adjugate agree with Mathlib -/

theorem detQ_eq {n : Nat} (A : Matrix (Fin n) (Fin n) ℚ) : detQ n A = A.det := by
  induction n with
  | zero => simp [detQ, Matrix.det_fin_zero]
  | succ m ih =>
      rw [Matrix.det_succ_row_zero, Fin.sum_univ_def]
      simp only [detQ, ih]

theorem adjugateQ_eq {n : Nat} (A : Matrix (Fin n) (Fin n) ℚ) : adjugateQ n A = A.adjugate := by
  match n with
  | 0 => exact Subsingleton.elim _ _
  | Nat.succ m =>
      ext i j
      rw [Matrix.adjugate_fin_succ_eq_det_submatrix]
      simp [adjugateQ, detQ_eq]

/-! ### Characterization of `matInv` -/

theorem matInv_ok {A : Mat} {n : Nat} (hA : IsRect A n n) (hdet : (toMx n n A).det ≠ 0) :
    matInv A = .ok (ofMx n n ((toMx n n A)⁻¹)) := by
  have hl : A.length = n := hA.1
  have hsq : ∀ r ∈ A, r.length = A.length := fun r hr => by rw [hA.2 r hr, hl]
  subst hl
  have hQ : detQ A.length (toMx A.length A.length A) ≠ 0 := by
    rw [detQ_eq]; exact hdet
  simp only [matInv, dif_pos hsq, if_neg hQ]
  congr 1
  rw [detQ_eq, adjugateQ_eq, Matrix.inv_def, Ring.inverse_eq_inv']

theorem matInv_singular {A : Mat} {n : Nat} (hA : IsRect A n n) (hdet : (toMx n n A).det = 0) :
    matInv A = .error .singularDesignMatrix := by
  have hl : A.length = n := hA.1
  have hsq : ∀ r ∈ A, r.length = A.length := fun r hr => by rw [hA.2 r hr, hl]
  subst hl
  have hQ : detQ A.length (toMx A.length A.length A) = 0 := by
    rw [detQ_eq]; exact hdet
  simp only [matInv, dif_pos hsq, if_pos hQ]

/-! ### The least-squares solver returns the normal-equation solution -/

theorem least_squares_spec {X Y : Mat} {N M T : Nat}
    (hX : IsRect X N M) (hY : IsRect Y N T) (hN : 0 < N) (hM : 0 < M)
    (hdet : ((toMx N M X)ᵀ * toMx N M X).det ≠ 0) :
    ∃ C, PolyModel.least_squares X Y = .ok C ∧ IsRect C M T ∧
      toMx M T C = ((toMx N M X)ᵀ * toMx N M X)⁻¹ * ((toMx N M X)ᵀ * toMx N T Y) := by
  have hcX : colCount X = M := colCount_of_isRect hX hN
  have hcY : colCount Y = T := colCount_of_isRect hY hN
  have hTr : IsRect (transposeM X) M N := by
    have h := transposeM_isRect X
    rwa [hcX, hX.1] at h
  have hG : IsRect (matmul (transposeM X) X) M M := by
    have h := matmul_isRect (transposeM X) X
    rwa [hTr.1, hcX] at h
  have hGmx : toMx M M (matmul (transposeM X) X) = (toMx N M X)ᵀ * toMx N M X := by
    rw [toMx_matmul hTr hX hN, toMx_transposeM hX hN]
  have hdet' : (toMx M M (matmul (transposeM X) X)).det ≠ 0 := by
    rw [hGmx]; exact hdet
  have hinv := matInv_ok hG hdet'
  have hXY : IsRect (matmul (transposeM X) Y) M T := by
    have h := matmul_isRect (transposeM X) Y
    rwa [hTr.1, hcY] at h
  refine ⟨matmul (ofMx M M ((toMx M M (matmul (transposeM X) X))⁻¹)) (matmul (transposeM X) Y),
    ?_, ?_, ?_⟩
  · simp only [PolyModel.least_squares, hinv]
  · have h1 : IsRect (ofMx M M ((toMx M M (matmul (transposeM X) X))⁻¹)) M M :=
      ofMx_isRect M M _
    have h2 := matmul_isRect (ofMx M M ((toMx M M (matmul (transposeM X) X))⁻¹))
      (matmul (transposeM X) Y)
    have hcXY : colCount (matmul (transposeM X) Y) = T := colCount_of_isRect hXY hM
    rwa [h1.1, hcXY] at h2
  · rw [toMx_matmul (ofMx_isRect M M _) hXY hM, toMx_ofMx,
      toMx_matmul hTr hY hN, toMx_transposeM hX hN, hGmx]

/-! ### Lemmas about `mapME` -/

theorem mapME_ok_length {α β : Type _} {f : α → Except Err β} :
    ∀ {l : List α} {r : List β}, mapME f l = .ok r → r.length = l.length := by
  intro l
  induction l with
  | nil => intro r h; simp only [mapME] at h; cases h; rfl
  | cons a t ih =>
      intro r h
      simp only [mapME] at h
      cases hf : f a with
      | error e => rw [hf] at h; cases h
      | ok b =>
          rw [hf] at h
          cases ht : mapME f t with
          | error e => rw [ht] at h; cases h
          | ok bs =>
              rw [ht] at h
              cases h
              simp [ih ht]

theorem mapME_cons_ok {α β : Type _} {f : α → Except Err β} {a : α} {t : List α} {r : List β}
    (h : mapME f (a :: t) = .ok r) :
    ∃ b bs, f a = .ok b ∧ mapME f t = .ok bs ∧ r = b :: bs := by
  simp only [mapME] at h
  cases hf : f a with
  | error e => rw [hf] at h; cases h
  | ok b =>
      rw [hf] at h
      cases ht : mapME f t with
      | error e => rw [ht] at h; cases h
      | ok bs =>
          rw [ht] at h
          cases h
          exact ⟨b, bs, rfl, rfl, rfl⟩

theorem mapME_congr_ok {α β : Type _} {f g : α → Except Err β} :
    ∀ {l : List α} {r : List β}, mapME f l = .ok r →
      (∀ a ∈ l, ∀ b, f a = .ok b → g a = .ok b) → mapME g l = .ok r := by
  intro l
  induction l with
  | nil => intro r h _; exact h
  | cons a t ih =>
      intro r h hfg
      obtain ⟨b, bs, hb, hbs, rfl⟩ := mapME_cons_ok h
      have h1 : g a = .ok b := hfg a (List.mem_cons_self a t) b hb
      have h2 : mapME g t = .ok bs := ih hbs (fun x hx => hfg x (List.mem_cons_of_mem a hx))
      simp only [mapME, h1, h2]

/-! ### Whitespace stripping commutes with the caret rewrite -/

theorem dropWhile_wsChar_idem (l : List Char) :
    (l.dropWhile wsChar).dropWhile wsChar = l.dropWhile wsChar := by
  induction l with
  | nil => rfl
  | cons c t ih =>
      by_cases h : wsChar c
      · simp only [List.dropWhile_cons, h, if_true]
        exact ih
      · simp only [List.dropWhile_cons, h, if_false]
        simp [List.dropWhile_cons, h]

theorem noLeadWS_dropWhile (l : List Char) : NoLeadWS (l.dropWhile wsChar) :=
  dropWhile_wsChar_idem l

theorem length_dropWhile_le' (p : Char → Bool) :
    ∀ l : List Char, (l.dropWhile p).length ≤ l.length := by
  intro l
  induction l with
  | nil => simp
  | cons c t ih =>
      rw [List.dropWhile_cons]
      by_cases h : p c
      · simp only [h, if_true]
        exact Nat.le_succ_of_le ih
      · simp [h]

theorem noLeadWS_head {c : Char} {t : List Char} (h : NoLeadWS (c :: t)) : wsChar c = false := by
  by_contra hc
  have hc' : wsChar c = true := by
    cases hq : wsChar c
    · exact absurd hq hc
    · rfl
  unfold NoLeadWS at h
  rw [List.dropWhile_cons, hc'] at h
  simp only [if_true] at h
  have hlen := congrArg List.length h
  simp only [List.length_cons] at hlen
  have h2 := length_dropWhile_le' wsChar t
  omega

theorem noLeadWS_cons {c : Char} {t : List Char} (h : wsChar c = false) : NoLeadWS (c :: t) := by
  unfold NoLeadWS
  rw [List.dropWhile_cons, h]
  simp

theorem noLeadWS_replaceCaret {l : List Char} (h : NoLeadWS l) : NoLeadWS (replaceCaret l) := by
  cases l with
  | nil => exact h
  | cons c t =>
      have hc := noLeadWS_head h
      simp only [replaceCaret]
      by_cases he : c = '^'
      · simp only [he, if_true]
        exact noLeadWS_cons (by rfl)
      · simp only [he, if_false]
        exact noLeadWS_cons hc

theorem noLeadWS_rightTrim {l : List Char} (h : NoLeadWS l) :
    NoLeadWS ((l.reverse.dropWhile wsChar).reverse) := by
  cases l with
  | nil => simp [NoLeadWS]
  | cons c t =>
      have hc := noLeadWS_head h
      rw [List.reverse_cons, List.dropWhile_append]
      cases he : (t.reverse.dropWhile wsChar).isEmpty with
      | true =>
          simp only [he, if_true]
          rw [show List.dropWhile wsChar [c] = [c] by
            rw [List.dropWhile_cons, hc]; simp]
          simp only [List.reverse_cons, List.reverse_nil, List.nil_append]
          exact noLeadWS_cons hc
      | false =>
          simp only [he, Bool.false_eq_true, if_false]
          rw [List.reverse_append]
          simp only [List.reverse_cons, List.reverse_nil, List.nil_append, List.singleton_append]
          exact noLeadWS_cons hc

theorem replaceCaret_append : ∀ (l₁ l₂ : List Char),
    replaceCaret (l₁ ++ l₂) = replaceCaret l₁ ++ replaceCaret l₂ := by
  intro l₁
  induction l₁ with
  | nil => intro l₂; rfl
  | cons c t ih =>
      intro l₂
      simp only [List.cons_append, replaceCaret]
      by_cases he : c = '^'
      · simp [he, ih]
      · simp [he, ih]

theorem replaceCaret_reverse : ∀ (l : List Char),
    (replaceCaret l).reverse = replaceCaret l.reverse := by
  intro l
  induction l with
  | nil => rfl
  | cons c t ih =>
      simp only [replaceCaret, List.reverse_cons, replaceCaret_append]
      by_cases he : c = '^'
      · simp only [he, if_true]
        rw [← ih]
        simp [replaceCaret]
      · simp only [he, if_false]
        rw [← ih]
        simp [replaceCaret, he]

/-- `trimChars` is the identity on lists with no leading whitespace on either end. -/
theorem trimChars_eq_self {l : List Char} (h1 : NoLeadWS l) (h2 : NoLeadWS l.reverse) :
    trimChars l = l := by
  unfold trimChars
  rw [h1, h2, List.reverse_reverse]

theorem noLeadWS_trimChars (l : List Char) : NoLeadWS (trimChars l) := by
  unfold trimChars
  exact noLeadWS_rightTrim (noLeadWS_dropWhile l)

theorem noLeadWS_trimChars_reverse (l : List Char) : NoLeadWS (trimChars l).reverse := by
  unfold trimChars
  rw [List.reverse_reverse]
  exact noLeadWS_dropWhile _

theorem trimChars_idem (l : List Char) : trimChars (trimChars l) = trimChars l :=
  trimChars_eq_self (noLeadWS_trimChars l) (noLeadWS_trimChars_reverse l)

/-- For an already-stripped term, the fit-time preprocessing
`strip(replace(t))` equals the run-time preprocessing `replace(t)`. -/
theorem trimChars_replaceCaret_trimChars (u : List Char) :
    trimChars (replaceCaret (trimChars u)) = replaceCaret (trimChars u) :=
  trimChars_eq_self
    (noLeadWS_replaceCaret (noLeadWS_trimChars u))
    (by
      rw [replaceCaret_reverse]
      exact noLeadWS_replaceCaret (noLeadWS_trimChars_reverse u))

/-! ### Environment extension preserves successful evaluation -/

theorem evalE_mono {env env' : Env} (h : envLe env env') :
    ∀ e v, evalE env e = .ok v → evalE env' e = .ok v := by
  intro e
  induction e with
  | lit q => intro v hv; exact hv
  | var s =>
      intro v hv
      simp only [evalE] at hv ⊢
      cases hl : lookupEnv s env with
      | none => rw [hl] at hv; cases hv
      | some c => rw [hl] at hv; rw [h s c hl]; exact hv
  | neg a ih =>
      intro v hv
      simp only [evalE] at hv ⊢
      cases ha : evalE env a with
      | error e => rw [ha] at hv; cases hv
      | ok x => rw [ha] at hv; rw [ih x ha]; exact hv
  | add a b iha ihb =>
      intro v hv
      simp only [evalE] at hv ⊢
      cases ha : evalE env a with
      | error e => rw [ha] at hv; cases hv
      | ok x =>
          rw [ha] at hv
          cases hb : evalE env b with
          | error e => rw [hb] at hv; cases hv
          | ok y => rw [hb] at hv; rw [iha x ha, ihb y hb]; exact hv
  | sub a b iha ihb =>
      intro v hv
      simp only [evalE] at hv ⊢
      cases ha : evalE env a with
      | error e => rw [ha] at hv; cases hv
      | ok x =>
          rw [ha] at hv
          cases hb : evalE env b with
          | error e => rw [hb] at hv; cases hv
          | ok y => rw [hb] at hv; rw [iha x ha, ihb y hb]; exact hv
  | mul a b iha ihb =>
      intro v hv
      simp only [evalE] at hv ⊢
      cases ha : evalE env a with
      | error e => rw [ha] at hv; cases hv
      | ok x =>
          rw [ha] at hv
          cases hb : evalE env b with
          | error e => rw [hb] at hv; cases hv
          | ok y => rw [hb] at hv; rw [iha x ha, ihb y hb]; exact hv
  | div a b iha ihb =>
      intro v hv
      simp only [evalE] at hv ⊢
      cases ha : evalE env a with
      | error e => rw [ha] at hv; cases hv
      | ok x =>
          rw [ha] at hv
          cases hb : evalE env b with
          | error e => rw [hb] at hv; cases hv
          | ok y => rw [hb] at hv; rw [iha x ha, ihb y hb]; exact hv
  | pow a b iha ihb =>
      intro v hv
      simp only [evalE] at hv ⊢
      cases ha : evalE env a with
      | error e => rw [ha] at hv; cases hv
      | ok x =>
          rw [ha] at hv
          cases hb : evalE env b with
          | error e => rw [hb] at hv; cases hv
          | ok y => rw [hb] at hv; rw [iha x ha, ihb y hb]; exact hv

theorem evalTermCol_mono {env env' : Env} (h : envLe env env') {l : List Char} {c : Col}
    (hc : evalTermCol l env = .ok c) : evalTermCol l env' = .ok c := by
  simp only [evalTermCol] at hc ⊢
  split at hc
  · cases hc
  · rename_i e hp
    split at hc
    · cases hc
    · rename_i v he
      rw [evalE_mono h e v he]
      exact hc

/-! ### The run-time namespace is contained in the fit-time namespace -/

theorem lookupEnv_mem_keys {k : List Char} {v : Col} :
    ∀ {env : Env}, lookupEnv k env = some v → k ∈ env.map Prod.fst := by
  intro env
  induction env with
  | nil => intro h; cases h
  | cons p t ih =>
      intro h
      simp only [lookupEnv] at h
      by_cases hk : k = p.1
      · simp [hk]
      · rw [if_neg hk] at h
        simp only [List.map_cons, List.mem_cons]
        exact Or.inr (ih h)

theorem fitEnv_eq_cons (vs : List Char) (data : Mat) :
    fitEnv vs data = ("_bias".toList, onesCol data.length) :: runEnv vs data := by
  simp [fitEnv, runEnv]

theorem mem_map_fst_zip {α β : Type _} :
    ∀ (l₁ : List α) (l₂ : List β) (x : α), x ∈ (l₁.zip l₂).map Prod.fst → x ∈ l₁ := by
  intro l₁
  induction l₁ with
  | nil => intro l₂ x h; simp at h
  | cons a t ih =>
      intro l₂ x h
      cases l₂ with
      | nil => simp at h
      | cons b t₂ =>
          simp only [List.zip_cons_cons, List.map_cons, List.mem_cons] at h
          cases h with
          | inl he => simp [he]
          | inr hm => exact List.mem_cons_of_mem a (ih t₂ x hm)

theorem runEnv_keys_short {vs : List Char} {data : Mat} {k : List Char}
    (h : k ∈ (runEnv vs data).map Prod.fst) : k.length = 1 := by
  simp only [runEnv] at h
  have h2 : k ∈ vs.map (fun c => [c]) := mem_map_fst_zip _ _ _ h
  simp only [List.mem_map] at h2
  obtain ⟨c, -, rfl⟩ := h2
  rfl

theorem envLe_run_fit (vs : List Char) (data : Mat) :
    envLe (runEnv vs data) (fitEnv vs data) := by
  intro k v h
  rw [fitEnv_eq_cons]
  simp only [lookupEnv]
  have hk : k.length = 1 := runEnv_keys_short (lookupEnv_mem_keys h)
  have hne : k ≠ "_bias".toList := by
    intro he
    rw [he] at hk
    simp at hk
  rw [if_neg hne]
  exact h

/-! ### Characterization of `splitPlus` (model of `str.split('+')`) -/

theorem splitPlus_ne_nil : ∀ l : List Char, splitPlus l ≠ [] := by
  intro l
  cases l with
  | nil => simp [splitPlus]
  | cons c rest =>
      simp only [splitPlus]
      by_cases h : c = '+'
      · simp [h]
      · simp only [h, if_false]
        cases hs : splitPlus rest <;> simp

theorem joinPlus_cons (p q : List Char) (ps : List (List Char)) :
    joinPlus (p :: q :: ps) = p ++ '+' :: joinPlus (q :: ps) := rfl

theorem joinPlus_splitPlus : ∀ l : List Char, joinPlus (splitPlus l) = l := by
  intro l
  induction l with
  | nil => rfl
  | cons c rest ih =>
      simp only [splitPlus]
      by_cases h : c = '+'
      · simp only [h, if_true]
        cases hs : splitPlus rest with
        | nil => exact absurd hs (splitPlus_ne_nil rest)
        | cons q ps =>
            rw [joinPlus_cons]
            rw [hs] at ih
            simp [ih]
      · simp only [h, if_false]
        cases hs : splitPlus rest with
        | nil => exact absurd hs (splitPlus_ne_nil rest)
        | cons q ps =>
            rw [hs] at ih
            cases ps with
            | nil =>
                simp only [joinPlus] at ih ⊢
                simp [ih]
            | cons q2 ps2 =>
                rw [joinPlus_cons] at ih ⊢
                simp [ih]

theorem splitPlus_no_plus : ∀ (l : List Char) (p : List Char), p ∈ splitPlus l → '+' ∉ p := by
  intro l
  induction l with
  | nil =>
      intro p hp
      simp only [splitPlus, List.mem_singleton] at hp
      simp [hp]
  | cons c rest ih =>
      intro p hp
      simp only [splitPlus] at hp
      by_cases h : c = '+'
      · rw [if_pos h] at hp
        cases hp with
        | head => simp
        | tail _ hm => exact ih p hm
      · rw [if_neg h] at hp
        cases hs : splitPlus rest with
        | nil => exact absurd hs (splitPlus_ne_nil rest)
        | cons q ps =>
            rw [hs] at hp
            cases hp with
            | head =>
                intro hmem
                cases hmem with
                | head => exact h rfl
                | tail _ hm => exact ih q (hs ▸ List.mem_cons_self q ps) hm
            | tail _ hm => exact ih p (hs ▸ List.mem_cons_of_mem q hm)

theorem splitPlus_length : ∀ l : List Char, (splitPlus l).length = l.count '+' + 1 := by
  intro l
  induction l with
  | nil => simp [splitPlus]
  | cons c rest ih =>
      simp only [splitPlus]
      by_cases h : c = '+'
      · simp only [h, if_true, List.length_cons, ih]
        rw [List.count_cons]
        simp
      · rw [if_neg h]
        cases hs : splitPlus rest with
        | nil => exact absurd hs (splitPlus_ne_nil rest)
        | cons q ps =>
            rw [hs] at ih
            simp only [List.length_cons] at ih ⊢
            rw [List.count_cons, ih]
            simp [h, Ne.symm h]

/-! ### Characterization of the variable list (model of `np.unique(re.findall(...))`) -/

theorem mem_insertChar (a c : Char) : ∀ l : List Char, a ∈ insertChar c l ↔ a = c ∨ a ∈ l := by
  intro l
  induction l with
  | nil => simp [insertChar]
  | cons d t ih =>
      simp only [insertChar]
      by_cases h : c ≤ d
      · simp [h]
      · rw [if_neg h]
        simp only [List.mem_cons, ih]
        tauto

theorem insertChar_perm (c : Char) : ∀ l : List Char, (insertChar c l).Perm (c :: l) := by
  intro l
  induction l with
  | nil => simp [insertChar]
  | cons d t ih =>
      simp only [insertChar]
      by_cases h : c ≤ d
      · simp [h]
      · rw [if_neg h]
        exact (ih.cons d).trans (List.Perm.swap c d t)

theorem sortChars_perm : ∀ l : List Char, (sortChars l).Perm l := by
  intro l
  induction l with
  | nil => simp [sortChars]
  | cons c t ih =>
      simp only [sortChars]
      exact (insertChar_perm c (sortChars t)).trans (ih.cons c)

theorem insertChar_sorted (c : Char) :
    ∀ l : List Char, l.Sorted (· ≤ ·) → (insertChar c l).Sorted (· ≤ ·) := by
  intro l
  induction l with
  | nil => intro _; simp [insertChar]
  | cons d t ih =>
      intro hs
      rw [List.sorted_cons] at hs
      simp only [insertChar]
      by_cases h : c ≤ d
      · rw [if_pos h, List.sorted_cons]
        constructor
        · intro b hb
          cases hb with
          | head => exact h
          | tail _ hm => exact le_trans h (hs.1 b hm)
        · rw [List.sorted_cons]
          exact hs
      · rw [if_neg h, List.sorted_cons]
        constructor
        · intro b hb
          rw [mem_insertChar] at hb
          cases hb with
          | inl he => exact he ▸ le_of_lt (lt_of_not_le h)
          | inr hm => exact hs.1 b hm
        · exact ih hs.2

theorem sortChars_sorted : ∀ l : List Char, (sortChars l).Sorted (· ≤ ·) := by
  intro l
  induction l with
  | nil => simp [sortChars]
  | cons c t ih => exact insertChar_sorted c (sortChars t) ih

theorem pmVariables_sorted (model : String) : (pmVariables model).Sorted (· < ·) := by
  have h1 : (pmVariables model).Sorted (· ≤ ·) := sortChars_sorted _
  have h2 : (pmVariables model).Nodup :=
    (sortChars_perm _).nodup_iff.mpr (List.nodup_dedup _)
  exact List.Sorted.lt_of_le h1 h2

theorem pmVariables_mem (model : String) (c : Char) :
    c ∈ pmVariables model ↔ ('a' ≤ c ∧ c ≤ 'z' ∧ c ∈ model.toList) := by
  unfold pmVariables
  rw [(sortChars_perm _).mem_iff, List.mem_dedup, List.mem_filter]
  constructor
  · intro ⟨hm, hp⟩
    simp only [Bool.and_eq_true, decide_eq_true_eq] at hp
    exact ⟨hp.1, hp.2, hm⟩
  · intro ⟨h1, h2, h3⟩
    refine ⟨h3, ?_⟩
    simp only [Bool.and_eq_true, decide_eq_true_eq]
    exact ⟨h1, h2⟩

/-! ### Shape utility lemmas -/

theorem colCount_hstackCols {n : Nat} (hn : 0 < n) (cols : List Col) :
    colCount (hstackCols n cols) = cols.length := by
  unfold colCount hstackCols
  cases hn' : n with
  | zero => omega
  | succ k => simp [List.range_succ_eq_map]

theorem colCount_matmul {A B : Mat} (hA : A ≠ []) : colCount (matmul A B) = colCount B := by
  cases A with
  | nil => exact absurd rfl hA
  | cons r t =>
      show ((matmul (r :: t) B).headD []).length = colCount B
      simp only [matmul, List.map_cons, List.headD_cons]
      simp [length_transposeM]

theorem matInv_ok_length {A B : Mat} (h : matInv A = .ok B) : B.length = A.length := by
  unfold matInv at h
  split at h
  · split at h
    · cases h
    · cases h
      simp [ofMx]
  · cases h

theorem least_squares_ok_shape {p q C : Mat} (h : PolyModel.least_squares p q = .ok C)
    (hp : 0 < colCount p) :
    C.length = colCount p ∧ colCount C = colCount q := by
  unfold PolyModel.least_squares at h
  split at h
  · cases h
  · rename_i a ha
    cases h
    have h1 : (matmul a (matmul (transposeM p) q)).length = a.length := matmul_length _ _
    have h2 : a.length = (matmul (transposeM p) p).length := matInv_ok_length ha
    have h3 : (matmul (transposeM p) p).length = colCount p := by
      rw [matmul_length, length_transposeM]
    have hane : a ≠ [] := by
      intro he
      rw [he] at h2
      simp only [List.length_nil] at h2
      omega
    constructor
    · rw [h1, h2, h3]
    · rw [colCount_matmul hane]
      have htne : transposeM p ≠ [] := by
        have hl := length_transposeM p
        intro he
        rw [he] at hl
        simp only [List.length_nil] at hl
        omega
      exact colCount_matmul htne

theorem getD_replicate {n : Nat} (i : Nat) (hi : i < n) :
    (List.replicate n (1 : ℚ)).getD i 0 = 1 := by
  rw [getD_lt 0 _ i (by simpa using hi)]
  simp

theorem colOf_hstackCols_zero {n : Nat} (c : Col) (cols : List Col) :
    colOf (hstackCols n (c :: cols)) 0 = (List.range n).map (fun i => c.getD i 0) := by
  unfold colOf hstackCols
  rw [List.map_map]
  rfl

theorem colOf_hstack_ones {n : Nat} (cols : List Col) :
    colOf (hstackCols n (onesCol n :: cols)) 0 = onesCol n := by
  rw [colOf_hstackCols_zero]
  refine ext_get (by simp [onesCol]) ?_
  intro i h₁ h₂
  have hi : i < n := by simpa using h₁
  rw [get_map, get_range]
  unfold onesCol
  rw [getD_replicate i hi]
  simp

/-! ### Definitional unfoldings of the constructor in each argument pattern -/

theorem init_fit_unfold (model : String) (F T : Mat) :
    PolyModel.init model (some F) (some T) none =
      (if colCount F ≠ (pmVariables model).length then
        .error (.dimensionMismatch (colCount F) (pmVariables model).length)
      else
        match
          mapME (fun t => evalTermCol (trimChars (replaceCaret t)) (fitEnv (pmVariables model) F))
            (pmTerms model)
        with
        | .error e => .error e
        | .ok cols =>
            match PolyModel.least_squares (hstackCols F.length cols) T with
            | .error e => .error e
            | .ok cs =>
                .ok ⟨model, pmTerms model, pmVariables model, some F, some T,
                  some (hstackCols F.length cols), cs⟩) := rfl

theorem init_preload_unfold (model : String) (c : Mat) :
    PolyModel.init model none none (some c) =
      (if c.length ≠ (pmTerms model).length then
        .error (.dimensionMismatch c.length (pmTerms model).length)
      else .ok ⟨model, pmTerms model, pmVariables model, none, none, none, c⟩) := rfl

/-! ### Inversion of the constructor -/

theorem init_fit_ok {model : String} {F T : Mat} {m : PolyModel}
    (h : PolyModel.init model (some F) (some T) none = .ok m) :
    colCount F = (pmVariables model).length ∧
    ∃ cols,
      mapME (fun t => evalTermCol (trimChars (replaceCaret t)) (fitEnv (pmVariables model) F))
        (pmTerms model) = .ok cols ∧
      PolyModel.least_squares (hstackCols F.length cols) T = .ok m.constants ∧
      m = ⟨model, pmTerms model, pmVariables model, some F, some T,
        some (hstackCols F.length cols), m.constants⟩ := by
  rw [init_fit_unfold] at h
  split at h
  · cases h
  · rename_i hcol
    split at h
    · cases h
    · rename_i cols hcols
      split at h
      · cases h
      · rename_i cs hcs
        cases h
        exact ⟨by omega, cols, hcols, hcs, rfl⟩

theorem init_preload_ok {model : String} {c : Mat} {m : PolyModel}
    (h : PolyModel.init model none none (some c) = .ok m) :
    c.length = (pmTerms model).length ∧
    m = ⟨model, pmTerms model, pmVariables model, none, none, none, c⟩ := by
  rw [init_preload_unfold] at h
  split at h
  · cases h
  · rename_i hlen
    cases h
    exact ⟨by omega, rfl⟩

/-! ### The bias term always evaluates to the column of ones at fit time -/

theorem fit_bias_term_eval (vs : List Char) (F : Mat) :
    evalTermCol (trimChars (replaceCaret "_bias".toList)) (fitEnv vs F) =
      .ok (onesCol F.length) := by
  have h1 : trimChars (replaceCaret "_bias".toList) = "_bias".toList := by decide
  rw [h1]
  have h2 : parseExpr "_bias".toList = .ok (.var "_bias".toList) := by
    with_unfolding_all rfl
  have h3 : evalE (fitEnv vs F) (.var "_bias".toList) = .ok (.col (onesCol F.length)) := by
    simp only [evalE, fitEnv_eq_cons, lookupEnv, if_pos]
  simp only [evalTermCol, h2, h3]
  rfl

/-! ### At fit time and at run time the same design columns are computed -/

theorem fit_cols_eq_run_cols {model : String} {F : Mat} {cols rcols : List Col}
    (hfit : mapME
      (fun t => evalTermCol (trimChars (replaceCaret t)) (fitEnv (pmVariables model) F))
      (pmTerms model) = .ok cols)
    (hrun : mapME (fun t => evalTermCol (replaceCaret t) (runEnv (pmVariables model) F))
      ((pmTerms model).drop 1) = .ok rcols) :
    cols = onesCol F.length :: rcols := by
  have hterms : pmTerms model = "_bias".toList :: (splitPlus model.toList).map trimChars := rfl
  rw [hterms] at hfit hrun
  simp only [List.drop_succ_cons, List.drop_zero] at hrun
  obtain ⟨c0, ctail, hc0, hctail, rfl⟩ := mapME_cons_ok hfit
  have hc0' : c0 = onesCol F.length :=
    Except.ok.inj (hc0.symm.trans (fit_bias_term_eval (pmVariables model) F))
  have hlift : mapME
      (fun t => evalTermCol (trimChars (replaceCaret t)) (fitEnv (pmVariables model) F))
      ((splitPlus model.toList).map trimChars) = .ok rcols := by
    refine mapME_congr_ok hrun ?_
    intro t ht b hb
    obtain ⟨u, -, rfl⟩ := List.mem_map.mp ht
    rw [trimChars_replaceCaret_trimChars]
    exact evalTermCol_mono (envLe_run_fit _ _) hb
  have htail : ctail = rcols := Except.ok.inj (hctail.symm.trans hlift)
  rw [hc0', htail]

/-! ### The run output is the design matrix times the coefficient matrix -/

theorem colCount_of_map {α : Type _} (f : α → Col) (l : List α) (hl : l ≠ []) (n : Nat)
    (hf : ∀ x ∈ l, (f x).length = n) : colCount (l.map f) = n := by
  cases l with
  | nil => exact absurd rfl hl
  | cons a t =>
      show ((((a :: t).map f)).headD []).length = n
      simp only [List.map_cons, List.headD_cons]
      exact hf a (List.mem_cons_self a t)

theorem dot_comm : ∀ (u v : Col), dot u v = dot v u := by
  intro u
  induction u with
  | nil => intro v; cases v <;> simp [dot]
  | cons a t ih =>
      intro v
      cases v with
      | nil => simp [dot]
      | cons b s =>
          have h1 : dot (a :: t) (b :: s) = a * b + dot t s := by simp [dot]
          have h2 : dot (b :: s) (a :: t) = b * a + dot s t := by simp [dot]
          rw [h1, h2, mul_comm, ih s]

theorem run_grid (D C : Mat) (hC : 0 < colCount C) :
    transposeM ((transposeM C).map (fun cst => D.map (fun row => dot cst row))) = matmul D C := by
  have htC : transposeM C ≠ [] := by
    intro he
    have hl := length_transposeM C
    rw [he] at hl
    simp only [List.length_nil] at hl
    omega
  have hcc : colCount ((transposeM C).map (fun cst => D.map (fun row => dot cst row))) =
      D.length :=
    colCount_of_map _ _ htC D.length (fun x _ => by simp)
  have hTdef : transposeM ((transposeM C).map (fun cst => D.map (fun row => dot cst row))) =
      (List.range
        (colCount ((transposeM C).map (fun cst => D.map (fun row => dot cst row))))).map
        (fun j => colOf ((transposeM C).map (fun cst => D.map (fun row => dot cst row))) j) := rfl
  rw [hTdef, hcc]
  refine ext_get (by simp [matmul]) ?_
  intro i h₁ h₂
  have hiD : i < D.length := by simpa using h₁
  rw [get_map, get_range]
  unfold matmul
  rw [get_map]
  unfold colOf
  rw [List.map_map]
  refine List.map_congr_left ?_
  intro cst _
  simp only [Function.comp_apply]
  rw [getD_map_lt _ 0 _ _ hiD]
  exact dot_comm cst (D.get ⟨i, hiD⟩)

/-! ### Remaining helpers for the claims -/

theorem mapME_ok_forall {α β : Type _} {f : α → Except Err β} :
    ∀ {l : List α} {r : List β}, mapME f l = .ok r → ∀ a ∈ l, ∃ b, f a = .ok b := by
  intro l
  induction l with
  | nil => intro r _ a ha; simp at ha
  | cons x t ih =>
      intro r h a ha
      obtain ⟨b, bs, hb, hbs, -⟩ := mapME_cons_ok h
      cases ha with
      | head => exact ⟨b, hb⟩
      | tail _ hm => exact ih hbs a hm

theorem run_congr (m m' : PolyModel) (h1 : m.variables' = m'.variables')
    (h2 : m._terms = m'._terms) (h3 : m.constants = m'.constants) (data : Mat) :
    m.run data = m'.run data := by
  simp only [PolyModel.run, PolyModel.runDesign, h1, h2, h3]

theorem pmTerms_length_pos (model : String) : 0 < (pmTerms model).length := by
  simp [pmTerms]

theorem r2_of_none {m : PolyModel} (hf : m.features = none) :
    m.r2 = .error .unavailableDiagnostic := by
  cases ht : m.targets <;> simp [PolyModel.r2, hf, ht]

/-! ### Variable-to-column binding is positional over the sorted variables -/

theorem pmVariables_nodup (model : String) : (pmVariables model).Nodup :=
  (sortChars_perm _).nodup_iff.mpr (List.nodup_dedup _)

theorem lookup_zip_singleton :
    ∀ (vs : List Char), vs.Nodup →
      ∀ (cols : List Col) (k : Nat) (hk : k < vs.length), cols.length = vs.length →
        lookupEnv [vs.get ⟨k, hk⟩] ((vs.map (fun c => [c])).zip cols) =
          some (cols.getD k []) := by
  intro vs
  induction vs with
  | nil => intro _ cols k hk _; simp at hk
  | cons v vs' ih =>
      intro hnd cols k hk hlen
      cases cols with
      | nil => simp at hlen
      | cons c cols' =>
          simp only [List.length_cons, Nat.succ.injEq] at hlen
          rw [List.nodup_cons] at hnd
          cases k with
          | zero =>
              simp only [List.map_cons, List.zip_cons_cons, lookupEnv]
              rw [if_pos (show [(v :: vs').get ⟨0, hk⟩] = [v] from rfl)]
              rfl
          | succ j =>
              have hj : j < vs'.length := Nat.lt_of_succ_lt_succ hk
              simp only [List.map_cons, List.zip_cons_cons, lookupEnv]
              have hne : [vs'.get ⟨j, hj⟩] ≠ [v] := by
                intro he
                have hv : vs'.get ⟨j, hj⟩ = v := by
                  simpa using he
                exact hnd.1 (hv ▸ vs'.get_mem j hj)
              rw [if_neg (show ¬([(v :: vs').get ⟨j + 1, hk⟩] = [v]) from hne)]
              exact ih hnd.2 cols' j hj hlen

/-- In the fit-time namespace, the `k`-th variable (in sorted order) is bound
to the `k`-th feature column. -/
theorem fitEnv_binds_sorted (model : String) (F : Mat) (k : Nat)
    (hk : k < (pmVariables model).length)
    (hlen : colCount F = (pmVariables model).length) :
    lookupEnv [(pmVariables model).get ⟨k, hk⟩] (fitEnv (pmVariables model) F) =
      some (colOf F k) := by
  rw [fitEnv_eq_cons]
  simp only [lookupEnv]
  rw [if_neg (by
    intro he
    have := congrArg List.length he
    simp at this)]
  have hlen2 : (transposeM F).length = (pmVariables model).length := by
    rw [length_transposeM, hlen]
  rw [show runEnv (pmVariables model) F =
    ((pmVariables model).map (fun c => [c])).zip (transposeM F) from rfl]
  rw [lookup_zip_singleton (pmVariables model) (pmVariables_nodup model) (transposeM F) k hk
    hlen2]
  congr 1
  have hkT : k < (transposeM F).length := by omega
  rw [getD_lt [] _ k hkT, transposeM_get]

/-! ## The claims -/

theorem gram_toMx {X : Mat} {N M : Nat} (hX : IsRect X N M) (hN : 0 < N) :
    (toMx N M X)ᵀ * toMx N M X = toMx M M (matmul (transposeM X) X) := by
  have hcX : colCount X = M := colCount_of_isRect hX hN
  have hTr : IsRect (transposeM X) M N := by
    have h := transposeM_isRect X
    rwa [hcX, hX.1] at h
  rw [toMx_matmul hTr hX hN, toMx_transposeM hX hN]

/-- C4 counterexample: supplying both construction modes and supplying neither
yield the identical `InvalidConstruction` error with one fixed message, so the
error does not state which combination of arguments was received. -/
theorem claim_C4_counterexample :
    PolyModel.init "x" (some [[1]]) (some [[1]]) (some [[0], [0]]) =
        .error (.invalidConstruction
          "Provide features and targets, or constants, but not both.") ∧
    PolyModel.init "x" none none none =
        .error (.invalidConstruction
          "Provide features and targets, or constants, but not both.") :=
  ⟨rfl, rfl⟩

/-- C4 (amended): supplying both a constants array and features/targets fails
with an `InvalidConstruction` error, and supplying neither also fails with the
same `InvalidConstruction` error (a fixed message that does not state which
combination was received); a construction can only succeed when exactly one of
the two modes is supplied. -/
theorem claim_C4 :
    (∀ (model : String) (f t c : Option Mat), (f.isSome || t.isSome) = true →
      c.isSome = true →
      PolyModel.init model f t c =
        .error (.invalidConstruction
          "Provide features and targets, or constants, but not both.")) ∧
    (∀ model : String,
      PolyModel.init model none none none =
        .error (.invalidConstruction
          "Provide features and targets, or constants, but not both.")) ∧
    (∀ (model : String) (f t c : Option Mat) (m : PolyModel),
      PolyModel.init model f t c = .ok m → (f.isSome || t.isSome) ≠ c.isSome) := by
  refine ⟨?_, ?_, ?_⟩
  · intro model f t c hft hc
    simp only [PolyModel.init, hft, hc, if_pos]
  · intro model
    rfl
  · intro model f t c m h heq
    simp only [PolyModel.init, if_pos heq] at h
    cases h

theorem claim_C4_witness :
    PolyModel.init "x" (some [[1]]) none (some [[0], [0]]) =
        .error (.invalidConstruction
          "Provide features and targets, or constants, but not both.") ∧
    ((some [[(1 : ℚ)]]).isSome || (none : Option Mat).isSome) = true ∧
    ((some [[(0 : ℚ)], [0]]).isSome) = true :=
  ⟨claim_C4.1 "x" (some [[1]]) none (some [[0], [0]]) rfl rfl, rfl, rfl⟩

/-- C5: at fit time, a features column count different from the number of
model variables makes construction fail with a `DimensionMismatch` error
carrying the actual and expected counts; at predict time, `run` fails with
`DimensionMismatch` whenever the data column count differs from the number of
model variables. -/
theorem claim_C5 :
    (∀ (model : String) (F T : Mat), colCount F ≠ (pmVariables model).length →
      PolyModel.init model (some F) (some T) none =
        .error (.dimensionMismatch (colCount F) (pmVariables model).length)) ∧
    (∀ (m : PolyModel) (data : Mat), colCount data ≠ m.variables'.length →
      m.run data = .error (.dimensionMismatch (colCount data) m.variables'.length)) := by
  constructor
  · intro model F T h
    rw [init_fit_unfold, if_pos h]
  · intro m data h
    simp only [PolyModel.run, if_pos h]

theorem claim_C5_witness :
    colCount [[(1 : ℚ), 2]] ≠ (pmVariables "x + y + z").length ∧
    PolyModel.init "x + y + z" (some [[1, 2]]) (some [[1]]) none =
      .error (.dimensionMismatch 2 3) ∧
    (⟨"x", [['_', 'b', 'i', 'a', 's'], ['x']], ['x'], none, none, none,
        [[1], [1]]⟩ : PolyModel).run [[1, 2]] =
      .error (.dimensionMismatch 2 1) := by
  refine ⟨?_, ?_, ?_⟩
  · with_unfolding_all decide
  · exact claim_C5.1 "x + y + z" [[1, 2]] [[1]] (by with_unfolding_all decide)
  · exact claim_C5.2
      ⟨"x", [['_', 'b', 'i', 'a', 's'], ['x']], ['x'], none, none, none, [[1], [1]]⟩
      [[1, 2]] (by with_unfolding_all decide)

/-- C7: requesting the `r2` diagnostic on a model constructed from externally
supplied constants (no features/targets stored) always fails with an
`UnavailableDiagnostic` error. -/
theorem claim_C7 :
    ∀ (model : String) (c : Mat) (m : PolyModel),
      PolyModel.init model none none (some c) = .ok m →
      m.r2 = .error .unavailableDiagnostic := by
  intro model c m h
  obtain ⟨-, hm⟩ := init_preload_ok h
  rw [hm]
  rfl

theorem claim_C7_witness :
    (⟨"x", [['_', 'b', 'i', 'a', 's'], ['x']], ['x'], none, none, none,
      [[(2 : ℚ)], [3]]⟩ : PolyModel).r2 = .error .unavailableDiagnostic :=
  claim_C7 "x" [[2], [3]]
    ⟨"x", [['_', 'b', 'i', 'a', 's'], ['x']], ['x'], none, none, none, [[2], [3]]⟩
    (by with_unfolding_all rfl)

/-- C9: whenever the normal-equations matrix XᵀX of the design matrix is
singular (in particular whenever there are fewer rows than columns), the solve
fails with a `SingularDesignMatrix` error; there is no pseudo-inverse
fallback. -/
theorem claim_C9 :
    (∀ (X Y : Mat) (N M : Nat), IsRect X N M → 0 < N →
      ¬ IsUnit ((toMx N M X)ᵀ * toMx N M X).det →
      PolyModel.least_squares X Y = .error .singularDesignMatrix) ∧
    (∀ (X Y : Mat) (N M : Nat), IsRect X N M → 0 < N → N < M →
      PolyModel.least_squares X Y = .error .singularDesignMatrix) := by
  have main : ∀ (X Y : Mat) (N M : Nat), IsRect X N M → 0 < N →
      ¬ IsUnit ((toMx N M X)ᵀ * toMx N M X).det →
      PolyModel.least_squares X Y = .error .singularDesignMatrix := by
    intro X Y N M hX hN hsing
    have hdet : ((toMx N M X)ᵀ * toMx N M X).det = 0 := by
      by_contra hne
      exact hsing (isUnit_iff_ne_zero.mpr hne)
    have hcX : colCount X = M := colCount_of_isRect hX hN
    have hTr : IsRect (transposeM X) M N := by
      have h := transposeM_isRect X
      rwa [hcX, hX.1] at h
    have hG : IsRect (matmul (transposeM X) X) M M := by
      have h := matmul_isRect (transposeM X) X
      rwa [hTr.1, hcX] at h
    have hdet' : (toMx M M (matmul (transposeM X) X)).det = 0 := by
      rw [← gram_toMx hX hN]
      exact hdet
    have hsing' := matInv_singular hG hdet'
    simp only [PolyModel.least_squares, hsing']
  refine ⟨main, ?_⟩
  intro X Y N M hX hN hNM
  refine main X Y N M hX hN ?_
  intro hunit
  have h1 : IsUnit ((toMx N M X)ᵀ * toMx N M X) :=
    (Matrix.isUnit_iff_isUnit_det _).mpr hunit
  have h2 : ((toMx N M X)ᵀ * toMx N M X).rank = M := by
    rw [Matrix.rank_of_isUnit _ h1, Fintype.card_fin]
  have h3 : ((toMx N M X)ᵀ * toMx N M X).rank ≤ (toMx N M X)ᵀ.rank :=
    Matrix.rank_mul_le_left _ _
  have h4 : (toMx N M X)ᵀ.rank = (toMx N M X).rank := Matrix.rank_transpose _
  have h5 : (toMx N M X).rank ≤ N := Matrix.rank_le_height _
  omega

theorem claim_C9_witness :
    IsRect [[(1 : ℚ), 2]] 1 2 ∧
    PolyModel.least_squares [[(1 : ℚ), 2]] [[3]] = .error .singularDesignMatrix := by
  refine ⟨?_, ?_⟩
  · constructor
    · rfl
    · intro r hr
      simp only [List.mem_singleton] at hr
      rw [hr]
      rfl
  · exact claim_C9.2 [[1, 2]] [[3]] 1 2
      ⟨rfl, by
        intro r hr
        simp only [List.mem_singleton] at hr
        rw [hr]
        rfl⟩
      (by decide) (by decide)

/-- C1: for every N×M design matrix X and N×T target matrix Y with XᵀX
invertible, the least-squares solver returns exactly C = (XᵀX)⁻¹(XᵀY), an
M×T matrix; and the coefficient matrix stored by a fitted PolyModel is the
solver's output on the computed design matrix. -/
theorem claim_C1 :
    (∀ (X Y : Mat) (N M T : Nat), IsRect X N M → IsRect Y N T → 0 < N → 0 < M →
      IsUnit ((toMx N M X)ᵀ * toMx N M X).det →
      ∃ C, PolyModel.least_squares X Y = .ok C ∧ IsRect C M T ∧
        toMx M T C =
          ((toMx N M X)ᵀ * toMx N M X)⁻¹ * ((toMx N M X)ᵀ * toMx N T Y)) ∧
    (∀ (model : String) (F T : Mat) (m : PolyModel),
      PolyModel.init model (some F) (some T) none = .ok m →
      ∃ D, m._features_computed = some D ∧
        PolyModel.least_squares D T = .ok m.constants) := by
  constructor
  · intro X Y N M T hX hY hN hM hinv
    exact least_squares_spec hX hY hN hM (isUnit_iff_ne_zero.mp hinv)
  · intro model F T m h
    obtain ⟨-, cols, -, hls, hm⟩ := init_fit_ok h
    exact ⟨hstackCols F.length cols, by rw [hm], hls⟩

theorem claim_C1_witness :
    IsUnit ((toMx 3 2 [[(1 : ℚ), 0], [0, 1], [1, 1]])ᵀ *
      toMx 3 2 [[(1 : ℚ), 0], [0, 1], [1, 1]]).det ∧
    (∃ C, PolyModel.least_squares [[(1 : ℚ), 0], [0, 1], [1, 1]] [[1], [2], [3]] = .ok C ∧
      IsRect C 2 1 ∧
      toMx 2 1 C =
        ((toMx 3 2 [[(1 : ℚ), 0], [0, 1], [1, 1]])ᵀ *
            toMx 3 2 [[(1 : ℚ), 0], [0, 1], [1, 1]])⁻¹ *
          ((toMx 3 2 [[(1 : ℚ), 0], [0, 1], [1, 1]])ᵀ *
            toMx 3 1 [[(1 : ℚ)], [2], [3]])) := by
  have hX : IsRect [[(1 : ℚ), 0], [0, 1], [1, 1]] 3 2 := by
    refine ⟨rfl, ?_⟩
    intro r hr
    simp only [List.mem_cons, List.mem_singleton] at hr
    rcases hr with h | h | h | h <;> first | (rw [h]; rfl) | cases h
  have hY : IsRect [[(1 : ℚ)], [2], [3]] 3 1 := by
    refine ⟨rfl, ?_⟩
    intro r hr
    simp only [List.mem_cons, List.mem_singleton] at hr
    rcases hr with h | h | h | h <;> first | (rw [h]; rfl) | cases h
  have hinv : IsUnit ((toMx 3 2 [[(1 : ℚ), 0], [0, 1], [1, 1]])ᵀ *
      toMx 3 2 [[(1 : ℚ), 0], [0, 1], [1, 1]]).det := by
    rw [isUnit_iff_ne_zero, gram_toMx hX (by decide), ← detQ_eq]
    with_unfolding_all decide
  exact ⟨hinv,
    claim_C1.1 [[(1 : ℚ), 0], [0, 1], [1, 1]] [[1], [2], [3]] 3 2 1 hX hY
      (by decide) (by decide) hinv⟩

/-- C2: a model fit from `(model_spec, features, targets)` and a second model
preloaded with the fitted constants on the same model_spec produce identical
`run` output on the original features (exactly, in rational arithmetic). -/
theorem claim_C2 :
    ∀ (model : String) (F T : Mat) (m : PolyModel), 0 < F.length →
      PolyModel.init model (some F) (some T) none = .ok m →
      ∃ m2, PolyModel.init model none none (some m.constants) = .ok m2 ∧
        m2.run F = m.run F := by
  intro model F T m hN h
  obtain ⟨hcol, cols, hcols, hls, hm⟩ := init_fit_ok h
  have hp : 0 < colCount (hstackCols F.length cols) := by
    rw [colCount_hstackCols hN, mapME_ok_length hcols]
    exact pmTerms_length_pos model
  have hclen : m.constants.length = (pmTerms model).length := by
    have hs := (least_squares_ok_shape hls hp).1
    rw [hs, colCount_hstackCols hN, mapME_ok_length hcols]
  refine ⟨⟨model, pmTerms model, pmVariables model, none, none, none, m.constants⟩, ?_, ?_⟩
  · rw [init_preload_unfold, if_neg (by omega)]
  · exact run_congr _ _ (by rw [hm]) (by rw [hm]) (by rw [hm]) F

theorem claim_C2_witness :
    0 < ([[(4 : ℚ), 2], [8, 2], [9, 1]] : Mat).length ∧
    (∃ m2, PolyModel.init "x + y" none none
        (some (⟨"x + y", [['_', 'b', 'i', 'a', 's'], ['x'], ['y']], ['x', 'y'],
          some [[4, 2], [8, 2], [9, 1]], some [[1], [4], [7]],
          some [[1, 4, 2], [1, 8, 2], [1, 9, 1]],
          [[5 / 2], [3 / 4], [-9 / 4]]⟩ : PolyModel).constants) = .ok m2 ∧
      m2.run [[4, 2], [8, 2], [9, 1]] =
        (⟨"x + y", [['_', 'b', 'i', 'a', 's'], ['x'], ['y']], ['x', 'y'],
          some [[4, 2], [8, 2], [9, 1]], some [[1], [4], [7]],
          some [[1, 4, 2], [1, 8, 2], [1, 9, 1]],
          [[5 / 2], [3 / 4], [-9 / 4]]⟩ : PolyModel).run [[4, 2], [8, 2], [9, 1]]) :=
  ⟨by decide,
    claim_C2 "x + y" [[4, 2], [8, 2], [9, 1]] [[1], [4], [7]]
      ⟨"x + y", [['_', 'b', 'i', 'a', 's'], ['x'], ['y']], ['x', 'y'],
        some [[4, 2], [8, 2], [9, 1]], some [[1], [4], [7]],
        some [[1, 4, 2], [1, 8, 2], [1, 9, 1]],
        [[5 / 2], [3 / 4], [-9 / 4]]⟩
      (by decide) (by with_unfolding_all rfl)⟩

/-- C3: fitting "x + y" against features [[4,2],[8,2],[9,1]] and targets
[[1],[4],[7]] produces constants exactly [[5/2],[3/4],[-9/4]] (bias first)
and r2 exactly [1]. -/
theorem claim_C3 :
    ∃ m, PolyModel.init "x + y" (some [[4, 2], [8, 2], [9, 1]])
        (some [[1], [4], [7]]) none = .ok m ∧
      m.constants = [[5 / 2], [3 / 4], [-9 / 4]] ∧ m.r2 = .ok [1] := by
  refine ⟨⟨"x + y", [['_', 'b', 'i', 'a', 's'], ['x'], ['y']], ['x', 'y'],
    some [[4, 2], [8, 2], [9, 1]], some [[1], [4], [7]],
    some [[1, 4, 2], [1, 8, 2], [1, 9, 1]],
    [[5 / 2], [3 / 4], [-9 / 4]]⟩, ?_, rfl, ?_⟩
  · with_unfolding_all rfl
  · with_unfolding_all rfl

/-- C6: the parsed term list is the '+'-split of the model string, each piece
stripped, with the implicit `_bias` term prepended (the split pieces contain
no '+' and reassemble to the original string); the variable list consists
exactly of the single lowercase letters occurring in the string, strictly
sorted; at fit time the k-th variable in sorted order is bound to the k-th
feature column; and in a fitted model column 0 of the computed design matrix
is the all-ones bias column, so row 0 of the coefficient matrix is the bias
coefficient. -/
theorem claim_C6 :
    (∀ model : String,
      pmTerms model = "_bias".toList :: (splitPlus model.toList).map trimChars ∧
      joinPlus (splitPlus model.toList) = model.toList ∧
      (∀ p ∈ splitPlus model.toList, '+' ∉ p) ∧
      (pmVariables model).Sorted (· < ·) ∧
      (∀ c : Char, c ∈ pmVariables model ↔ ('a' ≤ c ∧ c ≤ 'z' ∧ c ∈ model.toList))) ∧
    (∀ (model : String) (F : Mat) (k : Nat) (hk : k < (pmVariables model).length),
      colCount F = (pmVariables model).length →
      lookupEnv [(pmVariables model).get ⟨k, hk⟩] (fitEnv (pmVariables model) F) =
        some (colOf F k)) ∧
    (∀ (model : String) (F T : Mat) (m : PolyModel),
      PolyModel.init model (some F) (some T) none = .ok m →
      ∃ D, m._features_computed = some D ∧ colOf D 0 = onesCol F.length) := by
  refine ⟨?_, fitEnv_binds_sorted, ?_⟩
  · intro model
    exact ⟨rfl, joinPlus_splitPlus _, splitPlus_no_plus _, pmVariables_sorted model,
      pmVariables_mem model⟩
  · intro model F T m h
    obtain ⟨-, cols, hcols, -, hm⟩ := init_fit_ok h
    obtain ⟨c0, ctail, hc0, -, rfl⟩ := mapME_cons_ok hcols
    have hc0' : c0 = onesCol F.length :=
      Except.ok.inj (hc0.symm.trans (fit_bias_term_eval (pmVariables model) F))
    refine ⟨hstackCols F.length (c0 :: ctail), by rw [hm], ?_⟩
    rw [hc0']
    exact colOf_hstack_ones ctail

theorem claim_C6_witness :
    (∃ D, (⟨"x + y", [['_', 'b', 'i', 'a', 's'], ['x'], ['y']], ['x', 'y'],
        some [[4, 2], [8, 2], [9, 1]], some [[1], [4], [7]],
        some [[1, 4, 2], [1, 8, 2], [1, 9, 1]],
        [[5 / 2], [3 / 4], [-9 / 4]]⟩ : PolyModel)._features_computed = some D ∧
      colOf D 0 = onesCol ([[(4 : ℚ), 2], [8, 2], [9, 1]] : Mat).length) ∧
    lookupEnv [(pmVariables "x + y").get ⟨0, by with_unfolding_all decide⟩]
        (fitEnv (pmVariables "x + y") [[4, 2], [8, 2], [9, 1]]) =
      some (colOf [[4, 2], [8, 2], [9, 1]] 0) :=
  ⟨claim_C6.2.2 "x + y" [[4, 2], [8, 2], [9, 1]] [[1], [4], [7]]
    ⟨"x + y", [['_', 'b', 'i', 'a', 's'], ['x'], ['y']], ['x', 'y'],
      some [[4, 2], [8, 2], [9, 1]], some [[1], [4], [7]],
      some [[1, 4, 2], [1, 8, 2], [1, 9, 1]],
      [[5 / 2], [3 / 4], [-9 / 4]]⟩
    (by with_unfolding_all rfl),
    claim_C6.2.1 "x + y" [[4, 2], [8, 2], [9, 1]] 0 (by with_unfolding_all decide)
      (by with_unfolding_all decide)⟩

/-- C8 counterexample: model strings containing characters outside the
alphabet `[a-z+*^0-9 .]` can still construct successfully: in preload mode
(`"x@"` with matching constants) no expression validation happens at all, and
even in fit mode `"(x)"` (parentheses are outside the alphabet) parses,
evaluates and fits. -/
theorem claim_C8_counterexample :
    PolyModel.init "x@" none none (some [[1], [2]]) =
        .ok ⟨"x@", [['_', 'b', 'i', 'a', 's'], ['x', '@']], ['x'],
          none, none, none, [[1], [2]]⟩ ∧
    PolyModel.init "(x)" (some [[1], [2], [5]]) (some [[1], [2], [5]]) none =
        .ok ⟨"(x)", [['_', 'b', 'i', 'a', 's'], ['(', 'x', ')']], ['x'],
          some [[1], [2], [5]], some [[1], [2], [5]],
          some [[1, 1], [1, 2], [1, 5]], [[0], [1]]⟩ := by
  constructor
  · with_unfolding_all rfl
  · with_unfolding_all rfl

/-- C8 (amended): construction performs no alphabet validation of the model
string. In preload mode the terms are never parsed or evaluated: construction
succeeds for any model string whenever the constants row count equals the
number of terms. In fit mode construction succeeds exactly when every term
parses and evaluates over the bound variable columns; a term that fails to
parse surfaces as that parse/evaluation error (there is no dedicated
MalformedExpression check of the alphabet), and strings with characters
outside the alphabet can still fit successfully. -/
theorem claim_C8 :
    (∀ (model : String) (F T : Mat) (m : PolyModel),
      PolyModel.init model (some F) (some T) none = .ok m →
      ∀ t ∈ pmTerms model,
        ∃ c, evalTermCol (trimChars (replaceCaret t))
          (fitEnv (pmVariables model) F) = .ok c) ∧
    (∀ (model : String) (c : Mat), c.length = (pmTerms model).length →
      PolyModel.init model none none (some c) =
        .ok ⟨model, pmTerms model, pmVariables model, none, none, none, c⟩) := by
  constructor
  · intro model F T m h t ht
    obtain ⟨-, cols, hcols, -, -⟩ := init_fit_ok h
    exact mapME_ok_forall hcols t ht
  · intro model c hlen
    rw [init_preload_unfold, if_neg (by omega)]

theorem claim_C8_witness :
    ([[(1 : ℚ)], [2]] : Mat).length = (pmTerms "x@").length ∧
    PolyModel.init "x@" none none (some [[1], [2]]) =
      .ok ⟨"x@", pmTerms "x@", pmVariables "x@", none, none, none, [[1], [2]]⟩ ∧
    (∃ c, evalTermCol (trimChars (replaceCaret ['(', 'x', ')']))
      (fitEnv (pmVariables "(x)") [[1], [2], [5]]) = .ok c) := by
  have hlen : ([[(1 : ℚ)], [2]] : Mat).length = (pmTerms "x@").length := by
    with_unfolding_all decide
  refine ⟨hlen, claim_C8.2 "x@" [[1], [2]] hlen, ?_⟩
  refine claim_C8.1 "(x)" [[1], [2], [5]] [[1], [2], [5]]
    ⟨"(x)", [['_', 'b', 'i', 'a', 's'], ['(', 'x', ')']], ['x'],
      some [[1], [2], [5]], some [[1], [2], [5]],
      some [[1, 1], [1, 2], [1, 5]], [[0], [1]]⟩
    (by with_unfolding_all rfl) ['(', 'x', ')'] ?_
  with_unfolding_all decide

/-- C10: for a successfully fitted model, the design matrix stored at fit
time (`_features_computed`) equals the design matrix reassembled inside `run`
on the same stored features, and hence `run(features)` equals
`_features_computed @ constants`. -/
theorem claim_C10 :
    ∀ (model : String) (F T : Mat) (m : PolyModel) (D' : Mat),
      0 < F.length → 0 < colCount T →
      PolyModel.init model (some F) (some T) none = .ok m →
      m.runDesign F = .ok D' →
      m._features_computed = some D' ∧ m.run F = .ok (matmul D' m.constants) := by
  intro model F T m D' hN hT h hrun
  obtain ⟨hcol, cols, hcols, hls, hm⟩ := init_fit_ok h
  have hrd : m.runDesign F = .ok D' := hrun
  rw [hm] at hrun
  simp only [PolyModel.runDesign] at hrun
  split at hrun
  · cases hrun
  · rename_i rcols hrcols
    cases hrun
    have hcolseq : cols = onesCol F.length :: rcols := fit_cols_eq_run_cols hcols hrcols
    have hp : 0 < colCount (hstackCols F.length cols) := by
      rw [colCount_hstackCols hN, mapME_ok_length hcols]
      exact pmTerms_length_pos model
    have hshape := least_squares_ok_shape hls hp
    have hcc : 0 < colCount m.constants := by
      rw [hshape.2]
      exact hT
    constructor
    · rw [hm]
      simp only [hcolseq]
    · rw [hm]
      simp only [PolyModel.run]
      rw [if_neg (by omega)]
      have hrd' : PolyModel.runDesign
          ⟨model, pmTerms model, pmVariables model, some F, some T,
            some (hstackCols F.length cols), m.constants⟩ F =
          .ok (hstackCols F.length (onesCol F.length :: rcols)) := by
        rw [← hm]
        exact hrd
      rw [hrd']
      show Except.ok (transposeM ((transposeM m.constants).map
          (fun cst => (hstackCols F.length (onesCol F.length :: rcols)).map
            (fun row => dot cst row)))) =
        Except.ok (matmul (hstackCols F.length (onesCol F.length :: rcols)) m.constants)
      rw [run_grid _ _ hcc]

theorem claim_C10_witness :
    (⟨"x + y", [['_', 'b', 'i', 'a', 's'], ['x'], ['y']], ['x', 'y'],
        some [[4, 2], [8, 2], [9, 1]], some [[1], [4], [7]],
        some [[1, 4, 2], [1, 8, 2], [1, 9, 1]],
        [[5 / 2], [3 / 4], [-9 / 4]]⟩ : PolyModel)._features_computed =
      some [[1, 4, 2], [1, 8, 2], [1, 9, 1]] ∧
    (⟨"x + y", [['_', 'b', 'i', 'a', 's'], ['x'], ['y']], ['x', 'y'],
        some [[4, 2], [8, 2], [9, 1]], some [[1], [4], [7]],
        some [[1, 4, 2], [1, 8, 2], [1, 9, 1]],
        [[5 / 2], [3 / 4], [-9 / 4]]⟩ : PolyModel).run [[4, 2], [8, 2], [9, 1]] =
      .ok (matmul [[1, 4, 2], [1, 8, 2], [1, 9, 1]]
        [[5 / 2], [3 / 4], [-9 / 4]]) :=
  claim_C10 "x + y" [[4, 2], [8, 2], [9, 1]] [[1], [4], [7]]
    ⟨"x + y", [['_', 'b', 'i', 'a', 's'], ['x'], ['y']], ['x', 'y'],
      some [[4, 2], [8, 2], [9, 1]], some [[1], [4], [7]],
      some [[1, 4, 2], [1, 8, 2], [1, 9, 1]],
      [[5 / 2], [3 / 4], [-9 / 4]]⟩
    [[1, 4, 2], [1, 8, 2], [1, 9, 1]]
    (by decide) (by decide) (by with_unfolding_all rfl) (by with_unfolding_all rfl)
end MU
